import Mathlib

/-!
Shallow embedding of the segmentation / resumable-translation / reassembly
pipeline of the book-translation repository (the scripts
02_split_to_md.py, 03_translate_md.py and 04_merge_md.py).

Python strings are modelled as lists of characters: Python indexes and
slices strings by code point, exactly as `List Char` does.  Filesystem
state is modelled as association lists from filenames to file contents,
and the external translation CLI is modelled as an oracle describing the
outcome of each subprocess invocation.
-/

/-- Python strings, modelled as lists of Unicode code points. -/
abbrev Str := List Char

/-- Converts a Lean string literal into the Python string model. -/
def chars (s : String) : Str := s.data

/-- Characters removed by Python `str.strip()`.  Model: the ASCII
whitespace characters (Python additionally strips a few rare Unicode
space characters, which do not occur in this development). -/
def isPySpace (c : Char) : Bool :=
  c == ' ' || c == '\t' || c == '\n' || c == '\r' || c == '\x0b' || c == '\x0c'

/-- Python `str.strip()`: removes leading and trailing whitespace. -/
def pyStrip (t : Str) : Str :=
  ((t.dropWhile isPySpace).reverse.dropWhile isPySpace).reverse

/-- Helper for `firstOccur`: the least index `k + i` such that `pat`
occurs at offset `i` of the scanned text. -/
def firstOccurAux (pat : Str) : Str → Nat → Option Nat
  | [], k => if pat = [] then some k else none
  | c :: rest, k =>
    if pat.isPrefixOf (c :: rest) then some k
    else firstOccurAux pat rest (k + 1)

/-- Python `s.find(pat)`: index of the leftmost occurrence of `pat` in
`s`, with the Python result -1 modelled as `none`. -/
def firstOccur (pat s : Str) : Option Nat := firstOccurAux pat s 0

/-- Python substring membership `pat in s`. -/
def containsSub (pat s : Str) : Bool := (firstOccur pat s).isSome

/-- Python slice `t[a:b]` for nonnegative bounds. -/
def pySlice (t : Str) (a b : Nat) : Str := (t.take b).drop a

/-- Python `str.split(sep)` for a one-character separator. -/
def splitOnChar (sep : Char) : Str → List Str
  | [] => [[]]
  | c :: rest =>
    if c = sep then [] :: splitOnChar sep rest
    else
      match splitOnChar sep rest with
      | [] => [[c]]
      | g :: gs => (c :: g) :: gs

/-- Python `sep.join(pieces)`. -/
def joinSep (sep : Str) : List Str → Str
  | [] => []
  | [x] => x
  | x :: y :: rest => x ++ sep ++ joinSep sep (y :: rest)

/-- Python lexicographic string comparison `a < b` (by code point). -/
def strLt : Str → Str → Bool
  | [], [] => false
  | [], _ :: _ => true
  | _ :: _, [] => false
  | a :: as, b :: bs => decide (a < b) || (a == b && strLt as bs)

/-! ## 02_split_to_md.py: the Unit Splitter -/

/-- True when a line is matched by the separator pattern of
`split_md_by_separator_with_merge` (the multiline regular expression
matching every full line that contains ten consecutive hyphens). -/
def isSeparatorLine (line : Str) : Bool := containsSub (chars "----------") line

/-- Splits a list of lines at the separator lines, dropping the
separator lines and keeping the (possibly empty) runs of lines between
them.  This models `re.split` with the full-line separator pattern: the
pieces the regular expression produces coincide with these runs once
both are stripped. -/
def splitAtSeparators : List Str → List (List Str)
  | [] => [[]]
  | l :: rest =>
    if isSeparatorLine l then [] :: splitAtSeparators rest
    else
      match splitAtSeparators rest with
      | [] => [[l]]
      | g :: gs => (l :: g) :: gs

/-- The atomic sections of `split_md_by_separator_with_merge`: the
document is split at separator lines, each piece is stripped, and empty
pieces are discarded. -/
def mdSections (content : Str) : List Str :=
  ((splitAtSeparators (splitOnChar '\n' content)).map
      (fun g => pyStrip (joinSep (chars "\n") g))).filter (fun s => !s.isEmpty)

/-- The basic CJK Unified Ideographs block U+4E00 – U+9FFF, the range
tested first by `count_characters`. -/
def isCJKBasic (c : Char) : Bool := decide ('一' ≤ c) && decide (c ≤ '鿿')

/-- Model of Python `str.isalpha()` (true on Unicode letters), restricted
to the letter ranges exercised in this development: ASCII letters,
Latin-1 letters, Greek, Cyrillic, Hiragana, Katakana, CJK Extension A
and the basic CJK Unified Ideographs.  Characters outside these ranges
are conservatively treated as non-alphabetic. -/
def pyIsAlpha (c : Char) : Bool :=
  let n := c.toNat
  (decide (97 ≤ n) && decide (n ≤ 122)) ||
  (decide (65 ≤ n) && decide (n ≤ 90)) ||
  (decide (0xc0 ≤ n) && decide (n ≤ 0xff) && !(n == 0xd7) && !(n == 0xf7)) ||
  (decide (0x391 ≤ n) && decide (n ≤ 0x3a9) && !(n == 0x3a2)) ||
  (decide (0x3b1 ≤ n) && decide (n ≤ 0x3c9)) ||
  (decide (0x410 ≤ n) && decide (n ≤ 0x44f)) ||
  (decide (0x3041 ≤ n) && decide (n ≤ 0x3096)) ||
  (decide (0x30a1 ≤ n) && decide (n ≤ 0x30fa)) ||
  (decide (0x3400 ≤ n) && decide (n ≤ 0x4dbf)) ||
  (decide (0x4e00 ≤ n) && decide (n ≤ 0x9fff))

/-- `count_characters` from 02_split_to_md.py: characters in the basic
CJK block count 2, any other alphabetic character counts 1, everything
else counts 0. -/
def count_characters (t : Str) : Nat :=
  t.foldl
    (fun acc c =>
      if isCJKBasic c then acc + 2
      else if pyIsAlpha c then acc + 1
      else acc) 0

/-- Least offset `k + i` such that `pat` occurs at offset `i` of the
scanned text with no newline among the skipped characters.  Models a
non-greedy dot run (which cannot cross a newline) followed by the
literal `pat`. -/
def findOnLineAux (pat : Str) : Str → Nat → Option Nat
  | [], k => if pat.isPrefixOf ([] : Str) then some k else none
  | c :: rest, k =>
    if pat.isPrefixOf (c :: rest) then some k
    else if c = '\n' then none
    else findOnLineAux pat rest (k + 1)

/-- Backtracking search for the tail of a markdown link or image match:
given the text following the opening bracket, finds the earliest pair of
a literal close-open sequence and a later closing parenthesis on the
same line, and returns the remainder after the full match.  Fuelled;
each retry strictly shortens the scanned text. -/
def findImgCloseF : Nat → Str → Option Str
  | 0, _ => none
  | fuel + 1, t =>
    match findOnLineAux (chars "](") t 0 with
    | none => none
    | some p =>
      let afterBr := t.drop (p + 2)
      match findOnLineAux (chars ")") afterBr 0 with
      | some q => some (afterBr.drop (q + 1))
      | none => findImgCloseF fuel (t.drop (p + 1))

/-- Model of the image substitution of `estimate_combined_char_count`:
removes every markdown image occurrence, scanning left to right. -/
def subImagesF : Nat → Str → Str
  | 0, t => t
  | _ + 1, [] => []
  | fuel + 1, c :: rest =>
    if c = '!' then
      match rest with
      | '[' :: r2 =>
        match findImgCloseF (r2.length + 1) r2 with
        | some remainder => subImagesF fuel remainder
        | none => c :: subImagesF fuel rest
      | _ => c :: subImagesF fuel rest
    else c :: subImagesF fuel rest

/-- Model of the link substitution of `estimate_combined_char_count`:
removes every markdown link occurrence, scanning left to right. -/
def subLinksF : Nat → Str → Str
  | 0, t => t
  | _ + 1, [] => []
  | fuel + 1, c :: rest =>
    if c = '[' then
      match findImgCloseF (rest.length + 1) rest with
      | some remainder => subLinksF fuel remainder
      | none => c :: subLinksF fuel rest
    else c :: subLinksF fuel rest

/-- Model of the fenced-code-block substitution (the only substitution
whose dot may cross newlines): removes every non-greedy pair of triple
backtick fences together with the enclosed text. -/
def subCodeBlocksF : Nat → Str → Str
  | 0, t => t
  | _ + 1, [] => []
  | fuel + 1, c :: rest =>
    if (chars "```").isPrefixOf (c :: rest) then
      match firstOccur (chars "```") ((c :: rest).drop 3) with
      | some p => subCodeBlocksF fuel (((c :: rest).drop 3).drop (p + 3))
      | none => c :: subCodeBlocksF fuel rest
    else c :: subCodeBlocksF fuel rest

/-- Model of the inline-code substitution: removes every non-greedy pair
of single backticks on one line together with the enclosed text. -/
def subInlineCodeF : Nat → Str → Str
  | 0, t => t
  | _ + 1, [] => []
  | fuel + 1, c :: rest =>
    if c = '`' then
      match findOnLineAux (chars "`") rest 0 with
      | some p => subInlineCodeF fuel (rest.drop (p + 1))
      | none => c :: subInlineCodeF fuel rest
    else c :: subInlineCodeF fuel rest

/-- Model of the header substitution: removes every greedy run of hash
marks followed by a greedy run of whitespace. -/
def subHeadersF : Nat → Str → Str
  | 0, t => t
  | _ + 1, [] => []
  | fuel + 1, c :: rest =>
    if c = '#' then
      subHeadersF fuel ((rest.dropWhile (fun d => d == '#')).dropWhile isPySpace)
    else c :: subHeadersF fuel rest

/-- Emphasis delimiter characters. -/
def isEmph (c : Char) : Bool := c == '*' || c == '_'

/-- Scans for the closing emphasis delimiter on the current line: the
non-greedy inner text runs up to the first delimiter character, and the
closing delimiter greedily takes up to two delimiter characters.
Returns the inner text and the remainder after the closing delimiter. -/
def emphClose : Str → Option (Str × Str)
  | [] => none
  | c :: rest =>
    if isEmph c then
      match rest with
      | d :: r2 => if isEmph d then some ([], r2) else some ([], rest)
      | [] => some ([], [])
    else if c = '\n' then none
    else
      match emphClose rest with
      | some (inner, rem) => some (c :: inner, rem)
      | none => none

/-- Model of the bold/italic substitution: each match of one or two
emphasis delimiters, a non-greedy inner text and one or two closing
delimiters is replaced by the inner text.  The opening delimiter is
greedy, so a two-character opening that finds no closing delimiter
backtracks to a one-character opening. -/
def subEmphasisF : Nat → Str → Str
  | 0, t => t
  | _ + 1, [] => []
  | fuel + 1, c :: rest =>
    if isEmph c then
      match rest with
      | d :: r2 =>
        if isEmph d then
          match emphClose r2 with
          | some (inner, rem) => inner ++ subEmphasisF fuel rem
          | none =>
            match emphClose rest with
            | some (inner, rem) => inner ++ subEmphasisF fuel rem
            | none => c :: subEmphasisF fuel rest
        else
          match emphClose rest with
          | some (inner, rem) => inner ++ subEmphasisF fuel rem
          | none => c :: subEmphasisF fuel rest
      | [] => c :: subEmphasisF fuel rest
    else c :: subEmphasisF fuel rest

/-- `estimate_combined_char_count` from 02_split_to_md.py: applies the
six regular-expression substitutions of the source in order (images,
links, fenced code blocks, inline code, headers, bold/italic) and then
counts the weighted characters of what remains. -/
def estimate_combined_char_count (t : Str) : Nat :=
  let t1 := subImagesF (t.length + 1) t
  let t2 := subLinksF (t1.length + 1) t1
  let t3 := subCodeBlocksF (t2.length + 1) t2
  let t4 := subInlineCodeF (t3.length + 1) t3
  let t5 := subHeadersF (t4.length + 1) t4
  let t6 := subEmphasisF (t5.length + 1) t5
  count_characters t6

/-- The section-merging loop of `split_md_by_separator_with_merge`
(lines 461 to 506 of 02_split_to_md.py).  `cur` is the pending merged
buffer and `cnt` the accumulated character count of its sections.  A
section whose own estimate exceeds the maximum flushes the buffer and is
emitted alone; a section that would push the buffer past the maximum
flushes the buffer and starts a new one; otherwise it is appended to the
buffer with a blank line. -/
def mergeSectionsLoop (maxT : Nat) : List Str → Str → Nat → List Str
  | [], cur, _ => if !cur.isEmpty then [cur] else []
  | s :: rest, cur, cnt =>
    let sc := estimate_combined_char_count s
    if maxT < sc then
      (if !cur.isEmpty then [cur] else []) ++ s :: mergeSectionsLoop maxT rest [] 0
    else if !cur.isEmpty && decide (maxT < cnt + sc) then
      cur :: mergeSectionsLoop maxT rest s sc
    else
      mergeSectionsLoop maxT rest
        (if !cur.isEmpty then cur ++ chars "\n\n" ++ s else s) (cnt + sc)

/-- `split_md_by_separator_with_merge` from 02_split_to_md.py, as the
list of unit texts it writes to the numbered page files.  The minimum
target only produces advisory warnings in the source and does not
influence the produced units. -/
def split_md_by_separator_with_merge (maxT : Nat) (content : Str) : List Str :=
  mergeSectionsLoop maxT (mdSections content) [] 0

/-! ## 03_translate_md.py: the Translation Invoker and Pipeline Coordinator -/

/-- The canonical start marker of the output contract. -/
def startCanon : Str := chars "<!-- START -->"

/-- The canonical end marker of the output contract. -/
def endCanon : Str := chars "<!-- END -->"

/-- The start-marker variations tried inside
`extract_content_between_markers` when the canonical start marker is
absent (the source list repeats its second entry). -/
def startVariationsInner : List Str :=
  [chars "<!--START-->", chars "<!-- START-->", chars "<!--START -->",
   chars "<!-- START-->"]

/-- The end-marker variations tried inside
`extract_content_between_markers` when the canonical end marker is
absent. -/
def endVariationsInner : List Str :=
  [chars "<!--END-->", chars "<!-- END-->", chars "<!--END -->",
   chars "<!-- END-->"]

/-- The start-marker variations checked by the retry diagnostics and the
emergency extraction (canonical marker included). -/
def startVariationsOuter : List Str :=
  [chars "<!-- START -->", chars "<!--START-->", chars "<!-- START-->",
   chars "<!--START -->"]

/-- The end-marker variations checked by the retry diagnostics and the
emergency extraction (canonical marker included). -/
def endVariationsOuter : List Str :=
  [chars "<!-- END -->", chars "<!--END-->", chars "<!-- END-->",
   chars "<!--END -->"]

/-- The variation loop of `extract_content_between_markers`: returns the
first listed marker that occurs in the text, with its position. -/
def findFirstVariation : List Str → Str → Option (Str × Nat)
  | [], _ => none
  | v :: rest, t =>
    match firstOccur v t with
    | some p => some (v, p)
    | none => findFirstVariation rest t

/-- `extract_content_between_markers` from 03_translate_md.py: looks for
the canonical start and end markers, falls back to punctuation/spacing
variations of either, and when both are found with the start before the
end returns the stripped text strictly between them. -/
def extract_content_between_markers (text : Str) : Option Str :=
  let startRes :=
    match firstOccur startCanon text with
    | some p => some (startCanon, p)
    | none => findFirstVariation startVariationsInner text
  let endRes :=
    match firstOccur endCanon text with
    | some p => some (endCanon, p)
    | none => findFirstVariation endVariationsInner text
  match startRes, endRes with
  | some (startMarker, startPos), some (_, endPos) =>
    if startPos < endPos then
      some (pyStrip (pySlice text (startPos + startMarker.length) endPos))
    else none
  | _, _ => none

/-- True when any of the listed markers occurs in the text (the `in`
loops of the retry diagnostics). -/
def hasAnyMarker (vars : List Str) (t : Str) : Bool :=
  vars.any (fun v => containsSub v t)

/-- True when any listed marker occurs in the given line. -/
def lineHasAnyMarker (vars : List Str) (line : Str) : Bool :=
  vars.any (fun v => containsSub v line)

/-- The line scan of the emergency extraction: walks the lines in order,
remembering the last line containing a start variation, and stops at the
first line containing an end variation (the start test of that same line
runs first). -/
def emergencyScanLines : List Str → Nat → Option Nat → Option Nat × Option Nat
  | [], _, startLine => (startLine, none)
  | l :: rest, i, startLine =>
    let startLine2 :=
      if lineHasAnyMarker startVariationsOuter l then some i else startLine
    if lineHasAnyMarker endVariationsOuter l then (startLine2, some i)
    else emergencyScanLines rest (i + 1) startLine2

/-- The emergency extraction of `translate_with_claude_cli`: when both
marker variations occur somewhere, takes the stripped interior lines
between the start-marker line and the end-marker line, succeeding only
when that interior is nonempty. -/
def emergencyExtract (t : Str) : Option Str :=
  let lines := splitOnChar '\n' t
  match emergencyScanLines lines 0 none with
  | (some sLine, some eLine) =>
    if sLine < eLine then
      let inner :=
        pyStrip (joinSep (chars "\n") ((lines.take eLine).drop (sLine + 1)))
      if !inner.isEmpty then some inner else none
    else none
  | _ => none

/-- The per-attempt output processing of `translate_with_claude_cli`
after a zero exit code: strip the captured output, run the strict
extraction, and when it produces nothing usable fall back to the
emergency extraction provided both marker variations are present. -/
def attemptExtract (stdout : Str) : Option Str :=
  let t := pyStrip stdout
  let fallback :=
    if hasAnyMarker startVariationsOuter t && hasAnyMarker endVariationsOuter t
    then emergencyExtract t
    else none
  match extract_content_between_markers t with
  | some e => if !(pyStrip e).isEmpty then some e else fallback
  | none => fallback

/-- Outcome of one `subprocess.Popen` invocation of the external CLI, as
seen by `run_claude_with_realtime_output`. -/
inductive PopenOutcome where
  | ok (rc : Int) (stdout stderr : Str)
  | timeout
  | exn (msg : Str)

/-- `run_claude_with_realtime_output` from 03_translate_md.py: a timeout
or any raised exception (including the `claude` binary being absent,
which raises inside this helper and is caught by its generic handler) is
converted into return code -1 with empty output. -/
def run_claude_with_realtime_output (o : PopenOutcome) : Int × Str × Str :=
  match o with
  | .ok rc out err => (rc, out, err)
  | .timeout => (-1, [], chars "Translation timeout (3 minutes)")
  | .exn m => (-1, [], m)

/-- The retry loop of `translate_with_claude_cli` over the remaining
attempt indices: each attempt invokes the external CLI once; a zero exit
code is post-processed by `attemptExtract`, anything else retries.
Returns the extraction result together with the number of external
invocations performed. -/
def translateAttemptsLoop (env : Nat → PopenOutcome) :
    List Nat → Nat → Option Str × Nat
  | [], calls => (none, calls)
  | a :: rest, calls =>
    let r := run_claude_with_realtime_output (env a)
    if r.1 = 0 then
      match attemptExtract r.2.1 with
      | some result => (some result, calls + 1)
      | none => translateAttemptsLoop env rest (calls + 1)
    else translateAttemptsLoop env rest (calls + 1)

/-- `translate_with_claude_cli` from 03_translate_md.py with its default
retry bound of 3: runs the attempt loop and reports the result and the
number of external invocations. -/
def translate_with_claude_cli (env : Nat → PopenOutcome)
    (maxRetries : Nat := 3) : Option Str × Nat :=
  translateAttemptsLoop env (List.range maxRetries) 0

/-- Association-list lookup modelling a file-existence check plus read
in the checkpoint directory. -/
def lookupFile (name : Str) : List (Str × Str) → Option Str
  | [] => none
  | (n, c) :: rest => if n = name then some c else lookupFile name rest

/-- Output Unit filename for a given unit filename. -/
def outputName (name : Str) : Str := chars "output_" ++ name

/-- Result of one Pipeline Coordinator run: the checkpoint directory
contents after the run, the three counters, and the number of units for
which the external translation capability was invoked. -/
structure CoordResult where
  outputs : List (Str × Str)
  translated : Nat
  skipped : Nat
  failed : Nat
  calls : Nat
deriving DecidableEq, Repr

/-- The per-unit loop of `translate_markdown_files`: skip when the
Output Unit already exists, copy trivially short units verbatim as a
skip, otherwise consult the translation capability, persisting the
Output Unit on success and creating nothing on definitive failure. -/
def coordLoop (tr : Str → Option Str) :
    List (Str × Str) → List (Str × Str) → CoordResult
  | [], outs => ⟨outs, 0, 0, 0, 0⟩
  | (name, content) :: rest, outs =>
    if (lookupFile (outputName name) outs).isSome then
      let r := coordLoop tr rest outs
      { r with skipped := r.skipped + 1 }
    else if (pyStrip content).length < 1 then
      let r := coordLoop tr rest (outs ++ [(outputName name, content)])
      { r with skipped := r.skipped + 1 }
    else
      match tr content with
      | some t =>
        let r := coordLoop tr rest (outs ++ [(outputName name, t)])
        { r with translated := r.translated + 1, calls := r.calls + 1 }
      | none =>
        let r := coordLoop tr rest outs
        { r with failed := r.failed + 1, calls := r.calls + 1 }

/-- Python list sort order on unit filenames (ascending, stable). -/
def fileNameLe (a b : Str × Str) : Prop := strLt b.1 a.1 = false

instance : DecidableRel fileNameLe := fun a b => by
  unfold fileNameLe; infer_instance

/-- `translate_markdown_files` from 03_translate_md.py: enumerates the
unit files in sorted filename order and runs the per-unit loop against
the existing Output Units.  `tr` abstracts `translate_with_claude_cli`
applied to a unit's content. -/
def translate_markdown_files (tr : Str → Option Str)
    (units existingOutputs : List (Str × Str)) : CoordResult :=
  coordLoop tr (List.insertionSort fileNameLe units) existingOutputs

/-! ## 04_merge_md.py: the Merger -/

/-- ASCII decimal digit test (model of Python `str.isdigit` for the
ASCII filenames handled here). -/
def isAsciiDigit (c : Char) : Bool := c.isDigit

/-- Fuelled worker for `splitDigitRuns`; each recursive call strictly
shortens the scanned text, so fuel `length + 1` always suffices.  The
leading maximal non-digit run is kept, then the following maximal digit
run, and the scan continues after it. -/
def splitDigitRunsF : Nat → Str → List Str
  | 0, t => [t]
  | fuel + 1, t =>
    if (t.dropWhile (fun c => !isAsciiDigit c)).isEmpty then
      [t.takeWhile (fun c => !isAsciiDigit c)]
    else
      t.takeWhile (fun c => !isAsciiDigit c) ::
        (t.dropWhile (fun c => !isAsciiDigit c)).takeWhile isAsciiDigit ::
        splitDigitRunsF fuel
          ((t.dropWhile (fun c => !isAsciiDigit c)).dropWhile isAsciiDigit)

/-- Model of `re.split` with a captured digit-run group as used by
`natural_sort_key`: the text is cut into the alternating (possibly
empty) non-digit pieces and the maximal digit runs, in order. -/
def splitDigitRuns (t : Str) : List Str := splitDigitRunsF (t.length + 1) t

/-- One entry of a natural sort key: either a lowercased text piece or
the numeric value of a digit run. -/
inductive Tok where
  | s (v : Str)
  | n (v : Nat)
deriving DecidableEq, Repr

/-- Python `int(digits)` on a run of ASCII digits. -/
def parseNat (t : Str) : Nat := t.foldl (fun acc c => acc * 10 + (c.toNat - 48)) 0

/-- Python `str.lower()` (ASCII model; the filenames here are ASCII). -/
def pyLower (t : Str) : Str := t.map Char.toLower

/-- `natural_sort_key` from 04_merge_md.py: splits the filename into
digit runs and other pieces, turning each digit run into its integer
value and lowercasing each other piece. -/
def natural_sort_key (t : Str) : List Tok :=
  (splitDigitRuns t).map
    (fun p => if !p.isEmpty && p.all isAsciiDigit then Tok.n (parseNat p)
              else Tok.s (pyLower p))

/-- Python comparison on key entries.  Comparing an integer entry with a
text entry raises `TypeError` in Python; the keys produced by
`natural_sort_key` alternate text and integer entries starting with a
text entry, so that case never arises when sorting filenames, and the
model makes it `false`. -/
def tokLt : Tok → Tok → Bool
  | .n a, .n b => decide (a < b)
  | .s a, .s b => strLt a b
  | .n _, .s _ => false
  | .s _, .n _ => false

/-- Python lexicographic comparison of two sort keys. -/
def keyLt : List Tok → List Tok → Bool
  | [], [] => false
  | [], _ :: _ => true
  | _ :: _, [] => false
  | a :: as, b :: bs => tokLt a b || (a == b && keyLt as bs)

/-- Sort order used by the Merger: ascending by natural sort key of the
filename (Python list sort, which is stable). -/
def mergeFileLe (a b : Str × Str) : Prop :=
  keyLt (natural_sort_key b.1) (natural_sort_key a.1) = false

instance : DecidableRel mergeFileLe := fun a b => by
  unfold mergeFileLe; infer_instance

/-- The filename filter of the Merger's glob pattern
`output_page*.md`. -/
def isOutputFile (name : Str) : Bool :=
  (chars "output_page").isPrefixOf name && (chars ".md").isSuffixOf name

/-- The concatenation loop of `merge_markdown_files`: each file's
stripped content, when nonempty, is appended followed by a blank line;
empty files only produce a warning. -/
def mergedContent (files : List (Str × Str)) : Str :=
  files.foldl
    (fun acc f =>
      let c := pyStrip f.2
      if !c.isEmpty then acc ++ c ++ chars "\n\n" else acc) []

/-- `merge_markdown_files` from 04_merge_md.py, as a function of the
checkpoint-directory contents: selects the Output Unit files, aborts
(`none`) when there are none at all, and otherwise writes (`some`) the
concatenation of their stripped contents in natural-sort order.  No
comparison against the number of unit files takes place. -/
def merge_markdown_files (dir : List (Str × Str)) : Option Str :=
  let outputFiles := dir.filter (fun f => isOutputFile f.1)
  if outputFiles.isEmpty then none
  else some (mergedContent (List.insertionSort mergeFileLe outputFiles))

/-- Digit character for a value below ten (values ten or above clamp to
the digit 9; all uses keep the argument below ten). -/
def digitChar : Nat → Char
  | 0 => '0'
  | 1 => '1'
  | 2 => '2'
  | 3 => '3'
  | 4 => '4'
  | 5 => '5'
  | 6 => '6'
  | 7 => '7'
  | 8 => '8'
  | _ => '9'

/-- Python `f"%04d" % i` for `i < 10000`: the four decimal digits of a
unit index as written by the splitter. -/
def pad4 (i : Nat) : Str :=
  [digitChar (i / 1000 % 10), digitChar (i / 100 % 10),
   digitChar (i / 10 % 10), digitChar (i % 10)]

/-- Unit filename written by the splitter for 1-based index `i`. -/
def pageName (i : Nat) : Str := chars "page" ++ pad4 i ++ chars ".md"

/-- Output Unit filename for 1-based index `i`. -/
def outFileName (i : Nat) : Str := chars "output_page" ++ pad4 i ++ chars ".md"

/-! ## Definitions taken from the specification's wording -/

/-- Modelled from the spec: the whitespace-normalized source text, for
the round-trip property — the document with its separator lines removed,
each section stripped of surrounding whitespace, empty sections dropped,
and the sections joined by one blank line. -/
def normalizedSource (content : Str) : Str :=
  joinSep (chars "\n\n") (mdSections content)

/-- Modelled from the spec: the per-character weight the specification
describes for the weighted-size metric — CJK ideographs (the CJK Unified
Ideographs blocks) count 2, Latin letters (ASCII, Latin-1 and Latin
Extended letters) count 1, and every other character counts 0. -/
def claimCharWeight (c : Char) : Nat :=
  let n := c.toNat
  if (0x4e00 ≤ n && n ≤ 0x9fff) || (0x3400 ≤ n && n ≤ 0x4dbf) then 2
  else if (97 ≤ n && n ≤ 122) || (65 ≤ n && n ≤ 90) ||
          (0xc0 ≤ n && n ≤ 0xff && !(n == 0xd7) && !(n == 0xf7)) ||
          (0x100 ≤ n && n ≤ 0x24f) then 1
  else 0

/-- Modelled from the spec: the total weighted size the claim describes,
summing `claimCharWeight` over the text. -/
def claimWeightedSize (t : Str) : Nat := (t.map claimCharWeight).sum

/-- Per-character weight actually applied by `count_characters`: basic
CJK block 2, any other alphabetic character 1, everything else 0. -/
def codeCharWeight (c : Char) : Nat :=
  if isCJKBasic c then 2 else if pyIsAlpha c then 1 else 0

/-! ## Lemmas about the Pipeline Coordinator -/

theorem coordLoop_counts (tr : Str → Option Str) (l : List (Str × Str)) :
    ∀ outs, (coordLoop tr l outs).translated + (coordLoop tr l outs).skipped +
      (coordLoop tr l outs).failed = l.length := by
  induction l with
  | nil => intro outs; simp [coordLoop]
  | cons u rest ih =>
    intro outs
    obtain ⟨name, content⟩ := u
    simp only [coordLoop]
    split
    · have := ih outs
      simp only [List.length_cons]
      omega
    · split
      · have := ih (outs ++ [(outputName name, content)])
        simp only [List.length_cons]
        omega
      · cases htr : tr content with
        | some t =>
          have := ih (outs ++ [(outputName name, t)])
          simp only [List.length_cons]
          omega
        | none =>
          have := ih outs
          simp only [List.length_cons]
          omega

theorem coordLoop_outputs_grow (tr : Str → Option Str) (l : List (Str × Str)) :
    ∀ outs, ∃ ext, (coordLoop tr l outs).outputs = outs ++ ext := by
  induction l with
  | nil => intro outs; exact ⟨[], by simp [coordLoop]⟩
  | cons u rest ih =>
    intro outs
    obtain ⟨name, content⟩ := u
    simp only [coordLoop]
    split
    · exact ih outs
    · split
      · obtain ⟨ext, hext⟩ := ih (outs ++ [(outputName name, content)])
        exact ⟨(outputName name, content) :: ext, by simp [hext]⟩
      · cases htr : tr content with
        | some t =>
          obtain ⟨ext, hext⟩ := ih (outs ++ [(outputName name, t)])
          exact ⟨(outputName name, t) :: ext, by simp [hext]⟩
        | none => exact ih outs

theorem lookupFile_append_left {name : Str} {outs : List (Str × Str)} {v : Str}
    (h : lookupFile name outs = some v) (ext : List (Str × Str)) :
    lookupFile name (outs ++ ext) = some v := by
  induction outs with
  | nil => simp [lookupFile] at h
  | cons p rest ih =>
    obtain ⟨n, c⟩ := p
    simp only [lookupFile, List.cons_append] at h ⊢
    split at h
    · simp [*]
    · simp only [*, if_false]
      exact ih h

theorem lookupFile_isSome_append {name : Str} {outs : List (Str × Str)}
    (h : (lookupFile name outs).isSome = true) (ext : List (Str × Str)) :
    (lookupFile name (outs ++ ext)).isSome = true := by
  cases hv : lookupFile name outs with
  | none => rw [hv] at h; simp at h
  | some v => rw [lookupFile_append_left hv ext]; rfl

theorem lookupFile_mid_isSome (name c : Str) (a b : List (Str × Str)) :
    (lookupFile name (a ++ (name, c) :: b)).isSome = true := by
  induction a with
  | nil => simp [lookupFile]
  | cons p rest ih =>
    obtain ⟨n, d⟩ := p
    simp only [lookupFile, List.cons_append]
    split
    · rfl
    · exact ih

theorem coordLoop_no_failure_all_outputs (tr : Str → Option Str)
    (l : List (Str × Str)) :
    ∀ outs, (coordLoop tr l outs).failed = 0 →
      ∀ p ∈ l, (lookupFile (outputName p.1) (coordLoop tr l outs).outputs).isSome = true := by
  induction l with
  | nil => intro outs _ p hp; simp at hp
  | cons u rest ih =>
    intro outs hfail p hp
    obtain ⟨name, content⟩ := u
    rw [List.mem_cons] at hp
    simp only [coordLoop] at hfail ⊢
    split at hfail
    · next hex =>
      simp only [*, if_true]
      rcases hp with hp | hp
      · subst hp
        obtain ⟨ext, hext⟩ := coordLoop_outputs_grow tr rest outs
        simp only [hext]
        exact lookupFile_isSome_append hex ext
      · exact ih outs hfail p hp
    · next hex =>
      simp only [*, if_false]
      split at hfail
      · next hshort =>
        simp only [*, if_true]
        rcases hp with hp | hp
        · subst hp
          obtain ⟨ext, hext⟩ :=
            coordLoop_outputs_grow tr rest (outs ++ [(outputName name, content)])
          simp only [hext, List.append_assoc, List.singleton_append]
          exact lookupFile_mid_isSome _ _ _ _
        · exact ih (outs ++ [(outputName name, content)]) hfail p hp
      · next hshort =>
        simp only [*, if_false]
        cases htr : tr content with
        | some t =>
          simp only [htr] at hfail ⊢
          rcases hp with hp | hp
          · subst hp
            obtain ⟨ext, hext⟩ :=
              coordLoop_outputs_grow tr rest (outs ++ [(outputName name, t)])
            simp only [hext, List.append_assoc, List.singleton_append]
            exact lookupFile_mid_isSome _ _ _ _
          · exact ih (outs ++ [(outputName name, t)]) hfail p hp
        | none =>
          simp only [htr] at hfail
          omega

theorem coordLoop_all_exist_skips (tr : Str → Option Str) (l : List (Str × Str))
    (outs : List (Str × Str))
    (h : ∀ p ∈ l, (lookupFile (outputName p.1) outs).isSome = true) :
    coordLoop tr l outs = ⟨outs, 0, l.length, 0, 0⟩ := by
  induction l with
  | nil => simp [coordLoop]
  | cons u rest ih =>
    obtain ⟨name, content⟩ := u
    have hu : (lookupFile (outputName name) outs).isSome = true :=
      h (name, content) (by simp)
    simp only [coordLoop, hu, if_true]
    rw [ih (fun p hp => h p (List.mem_cons_of_mem _ hp))]
    simp [List.length_cons]

theorem coordLoop_failed_unit (tr : Str → Option Str) (uname ucontent : Str)
    (l2 : List (Str × Str)) :
    ∀ (l1 outs : List (Str × Str)),
      lookupFile (outputName uname) (coordLoop tr l1 outs).outputs = none →
      1 ≤ (pyStrip ucontent).length →
      tr ucontent = none →
      coordLoop tr (l1 ++ (uname, ucontent) :: l2) outs =
        { coordLoop tr (l1 ++ l2) outs with
            failed := (coordLoop tr (l1 ++ l2) outs).failed + 1,
            calls := (coordLoop tr (l1 ++ l2) outs).calls + 1 } := by
  intro l1
  induction l1 with
  | nil =>
    intro outs hnone hlen htr
    have hnone2 : lookupFile (outputName uname) outs = none := by
      simpa [coordLoop] using hnone
    have hs : ¬ (pyStrip ucontent).length < 1 := by omega
    simp only [List.nil_append, coordLoop, hnone2, Option.isSome_none,
      Bool.false_eq_true, if_false, hs, htr]
  | cons v l1x ih =>
    intro outs hnone hlen htr
    obtain ⟨vname, vcontent⟩ := v
    simp only [List.cons_append, coordLoop, List.append_eq] at hnone ⊢
    cases hex : (lookupFile (outputName vname) outs).isSome with
    | true =>
      simp only [hex, if_true, eq_self_iff_true] at hnone ⊢
      rw [ih outs hnone hlen htr]
    | false =>
      simp only [hex, Bool.false_eq_true, if_false] at hnone ⊢
      by_cases hshort : (pyStrip vcontent).length < 1
      · simp only [hshort, if_true] at hnone ⊢
        rw [ih (outs ++ [(outputName vname, vcontent)]) hnone hlen htr]
      · simp only [hshort, if_false] at hnone ⊢
        cases htrv : tr vcontent with
        | some t =>
          simp only [htrv] at hnone ⊢
          rw [ih (outs ++ [(outputName vname, t)]) hnone hlen htr]
        | none =>
          simp only [htrv] at hnone ⊢
          rw [ih outs hnone hlen htr]

theorem translateAttemptsLoop_calls_le (env : Nat → PopenOutcome) :
    ∀ (l : List Nat) (c : Nat), (translateAttemptsLoop env l c).2 ≤ c + l.length := by
  intro l
  induction l with
  | nil => intro c; simp [translateAttemptsLoop]
  | cons a rest ih =>
    intro c
    simp only [translateAttemptsLoop, List.length_cons]
    split
    · split
      · simp only []
        omega
      · have := ih (c + 1)
        omega
    · have := ih (c + 1)
      omega

/-- C10: in every Pipeline Coordinator run each enumerated unit
increments exactly one of the translated, skipped or failed counters, so
the final tally satisfies translated + skipped + failed = total units. -/
theorem translate_markdown_files_counts_partition (tr : Str → Option Str)
    (units existing : List (Str × Str)) :
    (translate_markdown_files tr units existing).translated +
      (translate_markdown_files tr units existing).skipped +
      (translate_markdown_files tr units existing).failed = units.length := by
  unfold translate_markdown_files
  rw [coordLoop_counts]
  exact (List.perm_insertionSort fileNameLe units).length_eq

/-- C5: when a Coordinator run ends with no failed unit, running the
Coordinator again on the resulting checkpoint directory performs zero
external invocations, records every unit as skipped because its Output
Unit already exists, and leaves the Output Units identical — whatever
translation behavior the second run would have seen. -/
theorem coordinator_second_run_idempotent (tr tr2 : Str → Option Str)
    (units existing : List (Str × Str))
    (h : (translate_markdown_files tr units existing).failed = 0) :
    translate_markdown_files tr2 units
        (translate_markdown_files tr units existing).outputs =
      ⟨(translate_markdown_files tr units existing).outputs, 0,
        units.length, 0, 0⟩ := by
  unfold translate_markdown_files at h ⊢
  have hmem := coordLoop_no_failure_all_outputs tr
    (List.insertionSort fileNameLe units) existing h
  rw [coordLoop_all_exist_skips tr2 (List.insertionSort fileNameLe units)
    (coordLoop tr (List.insertionSort fileNameLe units) existing).outputs hmem]
  rw [(List.perm_insertionSort fileNameLe units).length_eq]

/-- Witness for C5 at a concrete one-unit job: the first run translates
the unit, the second run skips it with zero invocations. -/
theorem coordinator_second_run_idempotent_witness :
    (translate_markdown_files (fun _ => some (chars "T"))
        [(chars "page0001.md", chars "hello")] []).failed = 0
    ∧ translate_markdown_files (fun _ => none)
        [(chars "page0001.md", chars "hello")]
        (translate_markdown_files (fun _ => some (chars "T"))
          [(chars "page0001.md", chars "hello")] []).outputs =
      ⟨(translate_markdown_files (fun _ => some (chars "T"))
          [(chars "page0001.md", chars "hello")] []).outputs, 0, 1, 0, 0⟩ :=
  ⟨by decide,
    coordinator_second_run_idempotent (fun _ => some (chars "T")) (fun _ => none)
      [(chars "page0001.md", chars "hello")] [] (by decide)⟩

/-- C6: a unit whose translation ends in definitive failure contributes
no Output Unit file at all (the run's directory contents are exactly
those of the run without that unit) and adds one to the failed counter,
leaving every other unit's processing unchanged. -/
theorem coordinator_definitive_failure_no_output (tr : Str → Option Str)
    (units existing l1 l2 : List (Str × Str)) (uname ucontent : Str)
    (henum : List.insertionSort fileNameLe units = l1 ++ (uname, ucontent) :: l2)
    (hnew : lookupFile (outputName uname) (coordLoop tr l1 existing).outputs = none)
    (hlen : 1 ≤ (pyStrip ucontent).length)
    (hfail : tr ucontent = none) :
    translate_markdown_files tr units existing =
      { coordLoop tr (l1 ++ l2) existing with
          failed := (coordLoop tr (l1 ++ l2) existing).failed + 1,
          calls := (coordLoop tr (l1 ++ l2) existing).calls + 1 } := by
  unfold translate_markdown_files
  rw [henum]
  exact coordLoop_failed_unit tr uname ucontent l2 l1 existing hnew hlen hfail

/-- Witness for C6 at a concrete one-unit job whose only unit fails
definitively: no Output Unit is created and one failure is recorded. -/
theorem coordinator_definitive_failure_no_output_witness :
    List.insertionSort fileNameLe [((chars "page0001.md", chars "x") : Str × Str)] =
        [] ++ (chars "page0001.md", chars "x") :: []
    ∧ lookupFile (outputName (chars "page0001.md"))
        (coordLoop (fun _ => none) [] []).outputs = none
    ∧ 1 ≤ (pyStrip (chars "x")).length
    ∧ translate_markdown_files (fun _ => none)
        [(chars "page0001.md", chars "x")] [] =
      { coordLoop (fun _ => (none : Option Str)) ([] ++ []) [] with
          failed := (coordLoop (fun _ => (none : Option Str)) ([] ++ []) []).failed + 1,
          calls := (coordLoop (fun _ => (none : Option Str)) ([] ++ []) []).calls + 1 } :=
  ⟨by decide, by decide, by decide,
    coordinator_definitive_failure_no_output (fun _ => none)
      [(chars "page0001.md", chars "x")] [] [] []
      (chars "page0001.md") (chars "x") (by decide) (by decide) (by decide) rfl⟩

/-- C7: the Translation Invoker consults the external CLI at most three
times per unit; and at the concrete failing input where the CLI binary
is absent (every invocation raises, which the inner helper converts to
return code -1) it still performs all three invocations before giving
up, rather than aborting after the first — the unreachable
FileNotFoundError handler notwithstanding. -/
theorem translate_cli_retry_bound_and_missing_cli :
    (∀ env : Nat → PopenOutcome, (translate_with_claude_cli env).2 ≤ 3)
    ∧ translate_with_claude_cli
        (fun _ => PopenOutcome.exn (chars "claude command not found")) =
      (none, 3) := by
  constructor
  · intro env
    have := translateAttemptsLoop_calls_le env (List.range 3) 0
    simpa [translate_with_claude_cli] using this
  · rfl

/-! ## Lemmas about the weighted-size metric -/

theorem count_characters_eq_sum (t : Str) :
    count_characters t = (t.map codeCharWeight).sum := by
  have h : ∀ (l : Str) (acc : Nat),
      l.foldl (fun acc c => if isCJKBasic c then acc + 2
        else if pyIsAlpha c then acc + 1 else acc) acc =
        acc + (l.map codeCharWeight).sum := by
    intro l
    induction l with
    | nil => intro acc; simp
    | cons c rest ih =>
      intro acc
      cases h1 : isCJKBasic c with
      | true =>
        simp only [List.foldl_cons, List.map_cons, List.sum_cons, codeCharWeight,
          h1, if_true]
        rw [ih]
        omega
      | false =>
        cases h2 : pyIsAlpha c with
        | true =>
          simp only [List.foldl_cons, List.map_cons, List.sum_cons, codeCharWeight,
            h1, h2, Bool.false_eq_true, if_false, if_true]
          rw [ih]
          omega
        | false =>
          simp only [List.foldl_cons, List.map_cons, List.sum_cons, codeCharWeight,
            h1, h2, Bool.false_eq_true, if_false]
          rw [ih]
          omega
  unfold count_characters
  rw [h]
  omega

/-- C9 (amended): the weighted-size function is the per-character sum of
a weight giving 2 to the basic CJK Unified Ideographs block and 1 to
every other alphabetic character (Latin letters included, but also
Greek, Cyrillic, kana and CJK Extension A), and 0 to every
non-alphabetic character. -/
theorem count_characters_weight_characterization :
    (∀ t : Str, count_characters t = (t.map codeCharWeight).sum)
    ∧ (∀ c : Char, isCJKBasic c = true → codeCharWeight c = 2)
    ∧ (∀ c : Char, isCJKBasic c = false → pyIsAlpha c = true → codeCharWeight c = 1)
    ∧ (∀ c : Char, isCJKBasic c = false → pyIsAlpha c = false → codeCharWeight c = 0) := by
  refine ⟨count_characters_eq_sum, ?_, ?_, ?_⟩
  · intro c h
    simp [codeCharWeight, h]
  · intro c h1 h2
    simp [codeCharWeight, h1, h2]
  · intro c h1 h2
    simp [codeCharWeight, h1, h2]

/-- Witness for C9 at concrete characters: a CJK ideograph weighs 2, a
non-CJK letter weighs 1, punctuation weighs 0, and the total is the sum
of the weights. -/
theorem count_characters_weight_characterization_witness :
    count_characters (chars "中aα.") = ((chars "中aα.").map codeCharWeight).sum
    ∧ codeCharWeight (Char.ofNat 0x4e2d) = 2
    ∧ codeCharWeight (Char.ofNat 0x3b1) = 1
    ∧ codeCharWeight (Char.ofNat 46) = 0 :=
  ⟨count_characters_weight_characterization.1 (chars "中aα."),
   count_characters_weight_characterization.2.1 (Char.ofNat 0x4e2d) (by decide),
   count_characters_weight_characterization.2.2.1 (Char.ofNat 0x3b1) (by decide) (by decide),
   count_characters_weight_characterization.2.2.2 (Char.ofNat 46) (by decide) (by decide)⟩

/-- Counterexample to C9 as stated: a Greek letter is neither a CJK
ideograph nor a Latin letter, so the claimed weights give it 0, yet
`count_characters` counts it as 1 (Python `isalpha` accepts every
Unicode letter); and the CJK Extension A ideograph U+3400 is a CJK
ideograph, which the claim counts as 2, yet `count_characters` counts it
as 1 (its first range test covers only U+4E00 – U+9FFF). -/
theorem count_characters_diverges_from_claimed_weights :
    count_characters (chars "α") = 1 ∧ claimWeightedSize (chars "α") = 0
    ∧ count_characters (chars "㐀") = 1 ∧ claimWeightedSize (chars "㐀") = 2 := by
  decide

/-! ## Lemmas about substring search and marker extraction -/

theorem isPrefixOf_append_self (a b : Str) : a.isPrefixOf (a ++ b) = true := by
  induction a with
  | nil => simp [List.isPrefixOf]
  | cons c as ih => simp [List.isPrefixOf, ih]

theorem isPrefixOf_exists {pat s : Str} (h : pat.isPrefixOf s = true) :
    ∃ r, s = pat ++ r := by
  induction pat generalizing s with
  | nil => exact ⟨s, rfl⟩
  | cons p ps ih =>
    cases s with
    | nil => simp [List.isPrefixOf] at h
    | cons c cs =>
      simp only [List.isPrefixOf, Bool.and_eq_true, beq_iff_eq] at h
      obtain ⟨rfl, h2⟩ := h
      obtain ⟨r, hr⟩ := ih h2
      exact ⟨r, by simp [hr]⟩

theorem isPrefixOf_extend {pat s : Str} (b : Str) (h : pat.isPrefixOf s = true) :
    pat.isPrefixOf (s ++ b) = true := by
  obtain ⟨r, rfl⟩ := isPrefixOf_exists h
  rw [List.append_assoc]
  exact isPrefixOf_append_self _ _

theorem firstOccur_of_prefix {pat s : Str} (h : pat.isPrefixOf s = true) :
    firstOccur pat s = some 0 := by
  cases s with
  | nil =>
    have : pat = [] := by
      cases pat with
      | nil => rfl
      | cons p ps => simp [List.isPrefixOf] at h
    simp [firstOccur, firstOccurAux, this]
  | cons c cs => simp [firstOccur, firstOccurAux, h]

theorem firstOccurAux_shift (pat : Str) (s : Str) :
    ∀ (k : Nat), firstOccurAux pat s k = (firstOccurAux pat s 0).map (fun n => n + k) := by
  induction s with
  | nil =>
    intro k
    simp only [firstOccurAux]
    split
    · simp
    · simp
  | cons c rest ih =>
    intro k
    simp only [firstOccurAux]
    split
    · simp
    · rw [ih (k + 1), ih 1]
      cases firstOccurAux pat rest 0 with
      | none => simp
      | some n => simp; omega

theorem firstOccurAux_isSome_any (pat s : Str) (k : Nat) :
    (firstOccurAux pat s k).isSome = (firstOccurAux pat s 0).isSome := by
  rw [firstOccurAux_shift]
  cases firstOccurAux pat s 0 with
  | none => rfl
  | some n => rfl

theorem firstOccurAux_append (pat r : Str) :
    ∀ (a : Str) (k : Nat),
      (∀ n, n < a.length → pat.isPrefixOf ((a ++ r).drop n) = false) →
      firstOccurAux pat (a ++ r) k = firstOccurAux pat r (k + a.length) := by
  intro a
  induction a with
  | nil => intro k _; simp
  | cons c as ih =>
    intro k h
    have h0 := h 0 (by simp)
    simp only [List.drop_zero, List.cons_append, List.append_eq] at h0
    simp only [List.cons_append, List.append_eq, firstOccurAux, h0,
      Bool.false_eq_true, if_false]
    have h2 : ∀ n, n < as.length → pat.isPrefixOf ((as ++ r).drop n) = false := by
      intro n hn
      have := h (n + 1) (by simp; omega)
      simpa [List.cons_append] using this
    rw [ih (k + 1) h2, List.length_cons]
    have he : k + 1 + as.length = k + (as.length + 1) := by omega
    rw [he]

theorem pySlice_middle (a X b : Str) :
    pySlice (a ++ X ++ b) a.length (a.length + X.length) = X := by
  unfold pySlice
  rw [List.append_assoc, List.take_append, List.drop_left]
  cases b with
  | nil => simp
  | cons y ys => rw [List.take_left]

theorem containsSub_append_right {pat u : Str} (b : Str)
    (h : containsSub pat u = true) : containsSub pat (u ++ b) = true := by
  unfold containsSub firstOccur at h ⊢
  induction u with
  | nil =>
    simp only [firstOccurAux] at h
    split at h
    · next hp =>
      subst hp
      simp [firstOccurAux_isSome_any, firstOccurAux]
      cases b with
      | nil => simp [firstOccurAux]
      | cons y ys => simp [firstOccurAux, List.isPrefixOf]
    · simp at h
  | cons c cs ih =>
    simp only [firstOccurAux, List.cons_append, List.append_eq] at h ⊢
    by_cases hp : pat.isPrefixOf (c :: cs) = true
    · have hx : pat.isPrefixOf (c :: (cs ++ b)) = true := by
        have h3 := isPrefixOf_extend b hp
        simpa [List.cons_append] using h3
      simp [hx]
    · simp only [hp, Bool.false_eq_true, if_false] at h
      rw [firstOccurAux_isSome_any] at h
      by_cases hq : pat.isPrefixOf (c :: (cs ++ b)) = true
      · simp [hq]
      · simp only [hq, Bool.false_eq_true, if_false]
        rw [firstOccurAux_isSome_any]
        exact ih h

theorem containsSub_append_left {pat u : Str} (a : Str)
    (h : containsSub pat u = true) : containsSub pat (a ++ u) = true := by
  induction a with
  | nil => simpa using h
  | cons c as ih =>
    unfold containsSub firstOccur at ih ⊢
    simp only [List.cons_append, List.append_eq, firstOccurAux]
    split
    · simp
    · rw [firstOccurAux_isSome_any]
      exact ih

theorem containsSub_strip_false {pat t : Str}
    (h : containsSub pat t = false) : containsSub pat (pyStrip t) = false := by
  cases hc : containsSub pat (pyStrip t) with
  | false => rfl
  | true =>
    exfalso
    have hdec : t = t.takeWhile isPySpace ++ (pyStrip t ++
        ((t.dropWhile isPySpace).reverse.takeWhile isPySpace).reverse) := by
      conv_lhs => rw [← List.takeWhile_append_dropWhile (p := isPySpace) (l := t)]
      congr 1
      conv_lhs =>
        rw [← List.reverse_reverse (t.dropWhile isPySpace),
          ← List.takeWhile_append_dropWhile (p := isPySpace)
            (l := (t.dropWhile isPySpace).reverse)]
      rw [List.reverse_append]
      rfl
    have : containsSub pat t = true := by
      rw [hdec]
      exact containsSub_append_left _ (containsSub_append_right _ hc)
    rw [this] at h
    exact absurd h (by simp)

theorem firstOccur_eq_none_of_not_contains {pat s : Str}
    (h : containsSub pat s = false) : firstOccur pat s = none := by
  unfold containsSub at h
  cases hf : firstOccur pat s with
  | none => rfl
  | some n => rw [hf] at h; simp at h

theorem extract_canonical_pair (X : Str)
    (h : firstOccur endCanon (X ++ endCanon) = some X.length) :
    extract_content_between_markers (startCanon ++ X ++ endCanon) =
      some (pyStrip X) := by
  have h14 : startCanon.length = 14 := rfl
  have hpre : startCanon.isPrefixOf (startCanon ++ X ++ endCanon) = true := by
    rw [List.append_assoc]
    exact isPrefixOf_append_self _ _
  have hstart : firstOccur startCanon (startCanon ++ X ++ endCanon) = some 0 :=
    firstOccur_of_prefix hpre
  have hnomatch : ∀ n, n < startCanon.length →
      endCanon.isPrefixOf ((startCanon ++ (X ++ endCanon)).drop n) = false := by
    intro n hn
    have hn14 : n < 14 := by omega
    interval_cases n <;> rfl
  have hend : firstOccur endCanon (startCanon ++ X ++ endCanon) =
      some (X.length + 14) := by
    rw [List.append_assoc]
    unfold firstOccur
    rw [firstOccurAux_append endCanon (X ++ endCanon) startCanon 0 hnomatch]
    rw [firstOccurAux_shift]
    unfold firstOccur at h
    rw [h]
    simp [h14]
  have hslice : pySlice (startCanon ++ X ++ endCanon) (0 + startCanon.length)
      (X.length + 14) = X := by
    have hx : X.length + 14 = startCanon.length + X.length := by omega
    rw [Nat.zero_add, hx]
    exact pySlice_middle _ _ _
  have hlt : 0 < X.length + 14 := by omega
  unfold extract_content_between_markers
  rw [hstart, hend]
  simp only [hlt, if_true, hslice]

theorem extract_variant_pair (X : Str)
    (h1 : firstOccur startCanon
      (chars "<!--START-->" ++ X ++ chars "<!--END-->") = none)
    (h2 : firstOccur endCanon
      (chars "<!--START-->" ++ X ++ chars "<!--END-->") = none)
    (h3 : firstOccur (chars "<!--END-->") (X ++ chars "<!--END-->") =
      some X.length) :
    extract_content_between_markers
      (chars "<!--START-->" ++ X ++ chars "<!--END-->") = some (pyStrip X) := by
  have h12 : (chars "<!--START-->").length = 12 := rfl
  have hpre : (chars "<!--START-->").isPrefixOf
      (chars "<!--START-->" ++ X ++ chars "<!--END-->") = true := by
    rw [List.append_assoc]
    exact isPrefixOf_append_self _ _
  have hstart : firstOccur (chars "<!--START-->")
      (chars "<!--START-->" ++ X ++ chars "<!--END-->") = some 0 :=
    firstOccur_of_prefix hpre
  have hnomatch : ∀ n, n < (chars "<!--START-->").length →
      (chars "<!--END-->").isPrefixOf
        ((chars "<!--START-->" ++ (X ++ chars "<!--END-->")).drop n) = false := by
    intro n hn
    have hn12 : n < 12 := by omega
    interval_cases n <;> rfl
  have hendv : firstOccur (chars "<!--END-->")
      (chars "<!--START-->" ++ X ++ chars "<!--END-->") = some (X.length + 12) := by
    rw [List.append_assoc]
    unfold firstOccur
    rw [firstOccurAux_append (chars "<!--END-->") (X ++ chars "<!--END-->")
      (chars "<!--START-->") 0 hnomatch]
    rw [firstOccurAux_shift]
    unfold firstOccur at h3
    rw [h3]
    simp [h12]
  have hslice : pySlice (chars "<!--START-->" ++ X ++ chars "<!--END-->")
      (0 + (chars "<!--START-->").length) (X.length + 12) = X := by
    have hx : X.length + 12 = (chars "<!--START-->").length + X.length := by omega
    rw [Nat.zero_add, hx]
    exact pySlice_middle _ _ _
  have hlt : 0 < X.length + 12 := by omega
  unfold extract_content_between_markers
  rw [h1, h2]
  simp only [findFirstVariation, startVariationsInner, endVariationsInner,
    hstart, hendv, hlt, if_true, hslice]

theorem attemptExtract_none_of_no_marker (t : Str)
    (h : hasAnyMarker startVariationsOuter t = false ∨
      hasAnyMarker endVariationsOuter t = false) :
    attemptExtract t = none := by
  rcases h with h | h
  · have hv : ∀ v ∈ startVariationsOuter, containsSub v t = false := by
      intro v hvmem
      simp only [hasAnyMarker, List.any_eq_false] at h
      have := h v hvmem
      simpa using this
    have hA := containsSub_strip_false (hv startCanon (by simp [startVariationsOuter, startCanon]))
    have hB := containsSub_strip_false (hv (chars "<!--START-->") (by simp [startVariationsOuter]))
    have hC := containsSub_strip_false (hv (chars "<!-- START-->") (by simp [startVariationsOuter]))
    have hD := containsSub_strip_false (hv (chars "<!--START -->") (by simp [startVariationsOuter]))
    have hA2 : containsSub (chars "<!-- START -->") (pyStrip t) = false := hA
    have hstripAny : hasAnyMarker startVariationsOuter (pyStrip t) = false := by
      simp [hasAnyMarker, startVariationsOuter, hA2, hB, hC, hD]
    have hext : extract_content_between_markers (pyStrip t) = none := by
      unfold extract_content_between_markers
      rw [firstOccur_eq_none_of_not_contains hA]
      simp only [findFirstVariation, startVariationsInner,
        firstOccur_eq_none_of_not_contains hB,
        firstOccur_eq_none_of_not_contains hC,
        firstOccur_eq_none_of_not_contains hD]
    simp [attemptExtract, hext, hstripAny]
  · have hv : ∀ v ∈ endVariationsOuter, containsSub v t = false := by
      intro v hvmem
      simp only [hasAnyMarker, List.any_eq_false] at h
      have := h v hvmem
      simpa using this
    have hA := containsSub_strip_false (hv endCanon (by simp [endVariationsOuter, endCanon]))
    have hB := containsSub_strip_false (hv (chars "<!--END-->") (by simp [endVariationsOuter]))
    have hC := containsSub_strip_false (hv (chars "<!-- END-->") (by simp [endVariationsOuter]))
    have hD := containsSub_strip_false (hv (chars "<!--END -->") (by simp [endVariationsOuter]))
    have hA2 : containsSub (chars "<!-- END -->") (pyStrip t) = false := hA
    have hstripAny : hasAnyMarker endVariationsOuter (pyStrip t) = false := by
      simp [hasAnyMarker, endVariationsOuter, hA2, hB, hC, hD]
    have hext : extract_content_between_markers (pyStrip t) = none := by
      unfold extract_content_between_markers
      rw [firstOccur_eq_none_of_not_contains hA]
      simp only [findFirstVariation, endVariationsInner,
        firstOccur_eq_none_of_not_contains hB,
        firstOccur_eq_none_of_not_contains hC,
        firstOccur_eq_none_of_not_contains hD]
      cases hfs : firstOccur startCanon (pyStrip t) with
      | none =>
        simp only [findFirstVariation, startVariationsInner]
        cases h1 : firstOccur (chars "<!--START-->") (pyStrip t) <;>
          cases h2 : firstOccur (chars "<!-- START-->") (pyStrip t) <;>
            cases h3 : firstOccur (chars "<!--START -->") (pyStrip t) <;> rfl
      | some e => rfl
    simp [attemptExtract, hext, hstripAny]

/-- C2: the Translation Invoker's extraction returns exactly the text
between the first canonical marker pair, trimmed; it returns the same
text when the markers are replaced by the recognized punctuation/spacing
variants; and a response containing no start-marker variant or no
end-marker variant at all makes the per-attempt processing report
failure rather than returning an empty or wrong string. -/
theorem extraction_contract :
    (∀ X : Str, firstOccur endCanon (X ++ endCanon) = some X.length →
      extract_content_between_markers (startCanon ++ X ++ endCanon) =
        some (pyStrip X))
    ∧ (∀ X : Str,
        firstOccur startCanon (chars "<!--START-->" ++ X ++ chars "<!--END-->") =
          none →
        firstOccur endCanon (chars "<!--START-->" ++ X ++ chars "<!--END-->") =
          none →
        firstOccur (chars "<!--END-->") (X ++ chars "<!--END-->") =
          some X.length →
        extract_content_between_markers
          (chars "<!--START-->" ++ X ++ chars "<!--END-->") = some (pyStrip X))
    ∧ (∀ t : Str, hasAnyMarker startVariationsOuter t = false ∨
        hasAnyMarker endVariationsOuter t = false → attemptExtract t = none) :=
  ⟨extract_canonical_pair, extract_variant_pair, attemptExtract_none_of_no_marker⟩

/-- Witness for C2 at concrete responses: a canonical pair around
`hello world`, a variant pair around `hi`, and a marker-free response. -/
theorem extraction_contract_witness :
    firstOccur endCanon (chars "hello world" ++ endCanon) =
      some (chars "hello world").length
    ∧ extract_content_between_markers
        (startCanon ++ chars "hello world" ++ endCanon) =
      some (pyStrip (chars "hello world"))
    ∧ extract_content_between_markers
        (chars "<!--START-->" ++ chars "hi" ++ chars "<!--END-->") =
      some (pyStrip (chars "hi"))
    ∧ attemptExtract (chars "no markers here") = none :=
  ⟨by decide, extraction_contract.1 (chars "hello world") (by decide),
   extraction_contract.2.1 (chars "hi") (by decide) (by decide) (by decide),
   extraction_contract.2.2 (chars "no markers here") (Or.inl (by decide))⟩

/-! ## Lemmas about the Unit Splitter -/

theorem joinSep_ne_nil (sep : Str) (g : List Str) (hg : g ≠ [])
    (h : ∀ s ∈ g, s ≠ []) : joinSep sep g ≠ [] := by
  cases g with
  | nil => exact absurd rfl hg
  | cons x rest =>
    cases rest with
    | nil => exact h x (by simp)
    | cons y r =>
      simp only [joinSep]
      intro hc
      have hx := h x (by simp)
      simp only [List.append_eq_nil] at hc
      exact hx hc.1.1

theorem joinSep_isEmpty_eq (sep : Str) (cs : List Str)
    (h : ∀ s ∈ cs, s ≠ []) : (joinSep sep cs).isEmpty = cs.isEmpty := by
  cases cs with
  | nil => rfl
  | cons x rest =>
    have := joinSep_ne_nil sep (x :: rest) (by simp) h
    simp only [List.isEmpty_cons]
    cases hj : (joinSep sep (x :: rest)).isEmpty with
    | false => rfl
    | true => exact absurd (List.isEmpty_iff.mp hj) this

theorem joinSep_append_single (sep s : Str) :
    ∀ cs : List Str, joinSep sep (cs ++ [s]) =
      if cs.isEmpty then s else joinSep sep cs ++ sep ++ s := by
  intro cs
  induction cs with
  | nil => simp [joinSep]
  | cons x rest ih =>
    cases rest with
    | nil => simp [joinSep]
    | cons y r =>
      simp only [List.isEmpty_cons, Bool.false_eq_true, if_false] at ih ⊢
      have hx : (x :: y :: r) ++ [s] = x :: ((y :: r) ++ [s]) := by simp
      rw [hx]
      have hy : (y :: r) ++ [s] = y :: (r ++ [s]) := by simp
      rw [hy]
      have hyu : joinSep sep (x :: y :: (r ++ [s])) =
          x ++ sep ++ joinSep sep (y :: (r ++ [s])) := rfl
      rw [hyu, ← hy, ih]
      have hzu : joinSep sep (x :: y :: r) = x ++ sep ++ joinSep sep (y :: r) := rfl
      rw [hzu]
      simp [List.append_assoc]

theorem joinSep_append (sep : Str) :
    ∀ (a b : List Str), a ≠ [] → b ≠ [] →
      joinSep sep (a ++ b) = joinSep sep a ++ sep ++ joinSep sep b := by
  intro a
  induction a with
  | nil => intro b ha _; exact absurd rfl ha
  | cons x rest ih =>
    intro b _ hb
    cases rest with
    | nil =>
      cases b with
      | nil => exact absurd rfl hb
      | cons y r => simp [joinSep]
    | cons y r =>
      have h1 : (x :: y :: r) ++ b = x :: ((y :: r) ++ b) := by simp
      rw [h1]
      have h2 : (y :: r) ++ b = y :: (r ++ b) := by simp
      rw [h2]
      have h3 : joinSep sep (x :: y :: (r ++ b)) =
          x ++ sep ++ joinSep sep (y :: (r ++ b)) := rfl
      rw [h3, ← h2, ih b (by simp) hb]
      have h4 : joinSep sep (x :: y :: r) = x ++ sep ++ joinSep sep (y :: r) := rfl
      rw [h4]
      simp [List.append_assoc]

theorem joinSep_flatten (sep : Str) :
    ∀ P : List (List Str), (∀ g ∈ P, g ≠ []) →
      joinSep sep (P.map (joinSep sep)) = joinSep sep P.flatten := by
  intro P
  induction P with
  | nil => intro _; rfl
  | cons g rest ih =>
    intro h
    cases hr : rest with
    | nil => simp [joinSep]
    | cons g2 r2 =>
      subst hr
      have hg2 : g2 ≠ [] := h g2 (by simp)
      have hjoin_ne : (g2 :: r2).flatten ≠ [] := by
        cases g2 with
        | nil => exact absurd rfl hg2
        | cons c cc => simp [List.flatten]
      have hmapne : (g2 :: r2).map (joinSep sep) ≠ [] := by simp
      have hstep : joinSep sep ((g :: g2 :: r2).map (joinSep sep)) =
          joinSep sep g ++ sep ++ joinSep sep ((g2 :: r2).map (joinSep sep)) := by
        simp only [List.map_cons]
        rfl
      rw [hstep, ih (fun x hx => h x (by simp [hx]))]
      have hjoin : (g :: g2 :: r2).flatten = g ++ (g2 :: r2).flatten := by simp
      rw [hjoin]
      have hgne : g ≠ [] := h g (by simp)
      rw [joinSep_append sep g (g2 :: r2).flatten hgne hjoin_ne]

theorem mdSections_ne_nil (content : Str) : ∀ s ∈ mdSections content, s ≠ [] := by
  intro s hs
  unfold mdSections at hs
  rw [List.mem_filter] at hs
  have h2 := hs.2
  simpa [List.isEmpty_iff] using h2

theorem mergeSectionsLoop_structure (maxT : Nat) :
    ∀ (l cs : List Str),
      (∀ s ∈ l, s ≠ []) → (∀ s ∈ cs, s ≠ []) →
      (cs ≠ [] → (cs.map estimate_combined_char_count).sum ≤ maxT) →
      ∃ P : List (List Str),
        mergeSectionsLoop maxT l (joinSep (chars "\n\n") cs)
            ((cs.map estimate_combined_char_count).sum) =
          P.map (joinSep (chars "\n\n")) ∧
        P.flatten = cs ++ l ∧
        ∀ g ∈ P, g ≠ [] ∧
          ((g.map estimate_combined_char_count).sum ≤ maxT ∨
            ∃ s, g = [s] ∧ maxT < estimate_combined_char_count s) := by
  intro l
  induction l with
  | nil =>
    intro cs _ hcs hsum
    by_cases hnil : cs = []
    · subst hnil
      refine ⟨[], ?_, by simp, by simp⟩
      simp [mergeSectionsLoop, joinSep]
    · refine ⟨[cs], ?_, by simp, ?_⟩
      · have hne : (joinSep (chars "\n\n") cs).isEmpty = false := by
          rw [joinSep_isEmpty_eq _ _ hcs]
          cases cs with
          | nil => exact absurd rfl hnil
          | cons x r => simp
        simp [mergeSectionsLoop, hne]
      · intro g hg
        simp only [List.mem_singleton] at hg
        subst hg
        exact ⟨hnil, Or.inl (hsum hnil)⟩
  | cons s rest ih =>
    intro cs hl hcs hsum
    have hs_ne : s ≠ [] := hl s (by simp)
    have hrest : ∀ x ∈ rest, x ≠ [] := fun x hx => hl x (by simp [hx])
    have hempty : (joinSep (chars "\n\n") cs).isEmpty = cs.isEmpty :=
      joinSep_isEmpty_eq _ _ hcs
    by_cases hbig : maxT < estimate_combined_char_count s
    · obtain ⟨Px, hP1, hP2, hP3⟩ := ih [] hrest (by simp) (by simp)
      simp only [joinSep, List.map_nil, List.sum_nil] at hP1
      by_cases hnil : cs = []
      · subst hnil
        refine ⟨[s] :: Px, ?_, ?_, ?_⟩
        · simp only [mergeSectionsLoop, hbig, if_true, hempty]
          simp [hP1, joinSep]
        · simp [hP2]
        · intro g hg
          rcases List.mem_cons.mp hg with hg | hg
          · subst hg
            exact ⟨by simp, Or.inr ⟨s, rfl, hbig⟩⟩
          · exact hP3 g hg
      · have hcsempty : cs.isEmpty = false := by
          cases cs with
          | nil => exact absurd rfl hnil
          | cons x r => simp
        refine ⟨cs :: [s] :: Px, ?_, ?_, ?_⟩
        · simp only [mergeSectionsLoop, hbig, if_true, hempty, hcsempty]
          simp [hP1, joinSep]
        · simp [hP2]
        · intro g hg
          rcases List.mem_cons.mp hg with hg | hg
          · subst hg
            exact ⟨hnil, Or.inl (hsum hnil)⟩
          · rcases List.mem_cons.mp hg with hg | hg
            · subst hg
              exact ⟨by simp, Or.inr ⟨s, rfl, hbig⟩⟩
            · exact hP3 g hg
    · have hsle : estimate_combined_char_count s ≤ maxT := by omega
      by_cases hnil : cs = []
      · subst hnil
        obtain ⟨Px, hP1, hP2, hP3⟩ := ih [s] hrest (by simpa using hs_ne)
          (by simpa using hsle)
        simp only [joinSep, List.map_cons, List.map_nil, List.sum_cons,
          List.sum_nil, Nat.add_zero] at hP1
        refine ⟨Px, ?_, by simpa using hP2, hP3⟩
        simp only [mergeSectionsLoop, hbig, if_false, hempty]
        simp [hP1, joinSep]
      · have hcsempty : cs.isEmpty = false := by
          cases cs with
          | nil => exact absurd rfl hnil
          | cons x r => simp
        by_cases hover : maxT <
            (cs.map estimate_combined_char_count).sum + estimate_combined_char_count s
        · obtain ⟨Px, hP1, hP2, hP3⟩ := ih [s] hrest (by simpa using hs_ne)
            (by simpa using hsle)
          simp only [joinSep, List.map_cons, List.map_nil, List.sum_cons,
            List.sum_nil, Nat.add_zero] at hP1
          refine ⟨cs :: Px, ?_, ?_, ?_⟩
          · simp only [mergeSectionsLoop, hbig, if_false, hempty, hcsempty, hover]
            simp [hP1]
          · simp [hP2]
          · intro g hg
            rcases List.mem_cons.mp hg with hg | hg
            · subst hg
              exact ⟨hnil, Or.inl (hsum hnil)⟩
            · exact hP3 g hg
        · have hcs2 : ∀ x ∈ cs ++ [s], x ≠ [] := by
            intro x hx
            rcases List.mem_append.mp hx with hx | hx
            · exact hcs x hx
            · simp only [List.mem_singleton] at hx
              subst hx
              exact hs_ne
          have hsum2 : ((cs ++ [s]).map estimate_combined_char_count).sum ≤ maxT := by
            simp only [List.map_append, List.sum_append, List.map_cons,
              List.map_nil, List.sum_cons, List.sum_nil, Nat.add_zero]
            omega
          obtain ⟨Px, hP1, hP2, hP3⟩ := ih (cs ++ [s]) hrest hcs2 (fun _ => hsum2)
          refine ⟨Px, ?_, ?_, hP3⟩
          · rw [joinSep_append_single] at hP1
            simp only [hcsempty, Bool.false_eq_true, if_false] at hP1
            simp only [List.map_append, List.sum_append, List.map_cons,
              List.map_nil, List.sum_cons, List.sum_nil, Nat.add_zero] at hP1
            simp only [mergeSectionsLoop, hbig, if_false, hempty, hcsempty, hover]
            simp only [List.append_assoc] at hP1
            simp [hP1]
          · rw [hP2]
            simp

/-- C4: concatenating the Splitter's units in order with one blank line
reproduces the whitespace-normalized source document (separator lines
removed, sections stripped of surrounding whitespace, empty sections
dropped, sections joined by blank lines), and every produced unit is
nonempty. -/
theorem splitter_round_trip (maxT : Nat) (content : Str) :
    joinSep (chars "\n\n") (split_md_by_separator_with_merge maxT content) =
      normalizedSource content
    ∧ ∀ u ∈ split_md_by_separator_with_merge maxT content, u ≠ [] := by
  obtain ⟨P, hP1, hP2, hP3⟩ := mergeSectionsLoop_structure maxT
    (mdSections content) [] (mdSections_ne_nil content) (by simp) (by simp)
  have hloop : split_md_by_separator_with_merge maxT content =
      P.map (joinSep (chars "\n\n")) := by
    unfold split_md_by_separator_with_merge
    exact hP1
  constructor
  · rw [hloop, joinSep_flatten _ P (fun g hg => (hP3 g hg).1), hP2]
    simp [normalizedSource]
  · intro u hu
    rw [hloop] at hu
    obtain ⟨g, hgP, hgu⟩ := List.mem_map.mp hu
    rw [← hgu]
    apply joinSep_ne_nil _ g (hP3 g hgP).1
    intro x hx
    have hxflat : x ∈ P.flatten := List.mem_flatten.mpr ⟨g, hgP, hx⟩
    rw [hP2] at hxflat
    exact mdSections_ne_nil content x (by simpa using hxflat)

/-- Witness for C4 at a concrete two-section document. -/
theorem splitter_round_trip_witness :
    joinSep (chars "\n\n")
        (split_md_by_separator_with_merge 6 (chars "ab\n----------\ncd")) =
      normalizedSource (chars "ab\n----------\ncd")
    ∧ (chars "ab\n\ncd" ∈
        split_md_by_separator_with_merge 6 (chars "ab\n----------\ncd"))
    ∧ chars "ab\n\ncd" ≠ [] :=
  ⟨(splitter_round_trip 6 (chars "ab\n----------\ncd")).1, by decide,
   (splitter_round_trip 6 (chars "ab\n----------\ncd")).2
     (chars "ab\n\ncd") (by decide)⟩

/-- C3 (amended): every unit the Splitter produces is the blank-line
join of a nonempty run of atomic sections; either the sum of those
sections' individual weighted-size estimates is at most max_target, or
the unit is one single section whose own estimate exceeds max_target
(emitted unsplit).  The weighted size of the joined unit text itself can
exceed max_target even when the unit is not a lone oversized section,
because the markdown-stripping estimate is applied per section and is
not subadditive across joins. -/
theorem splitter_units_structure (maxT : Nat) (content : Str) :
    ∀ u ∈ split_md_by_separator_with_merge maxT content,
      ∃ g : List Str, g ≠ [] ∧ (∀ s ∈ g, s ∈ mdSections content) ∧
        u = joinSep (chars "\n\n") g ∧
        ((g.map estimate_combined_char_count).sum ≤ maxT ∨
          ∃ s, g = [s] ∧ maxT < estimate_combined_char_count s) := by
  intro u hu
  obtain ⟨P, hP1, hP2, hP3⟩ := mergeSectionsLoop_structure maxT
    (mdSections content) [] (mdSections_ne_nil content) (by simp) (by simp)
  have hloop : split_md_by_separator_with_merge maxT content =
      P.map (joinSep (chars "\n\n")) := by
    unfold split_md_by_separator_with_merge
    exact hP1
  rw [hloop] at hu
  obtain ⟨g, hgP, hgu⟩ := List.mem_map.mp hu
  refine ⟨g, (hP3 g hgP).1, ?_, hgu.symm, (hP3 g hgP).2⟩
  intro x hx
  have hxflat : x ∈ P.flatten := List.mem_flatten.mpr ⟨g, hgP, hx⟩
  rw [hP2] at hxflat
  simpa using hxflat

/-- Witness for C3 at a concrete one-section document. -/
theorem splitter_units_structure_witness :
    (chars "abc" ∈ split_md_by_separator_with_merge 5 (chars "abc"))
    ∧ ∃ g : List Str, g ≠ [] ∧ (∀ s ∈ g, s ∈ mdSections (chars "abc")) ∧
        chars "abc" = joinSep (chars "\n\n") g ∧
        ((g.map estimate_combined_char_count).sum ≤ 5 ∨
          ∃ s, g = [s] ∧ 5 < estimate_combined_char_count s) :=
  ⟨by decide, splitter_units_structure 5 (chars "abc") (chars "abc") (by decide)⟩

/-- Counterexample to C3 as stated: with max_target 6 the Splitter
merges two sections of estimate 3 each into one unit whose own weighted
size is 9 — in the markdown-stripped estimate and equally in the raw
weighted count — because code-fence stripping is not subadditive across
the blank-line join; the oversized unit consists of two atomic sections,
neither of which exceeds the bound on its own. -/
theorem splitter_oversized_merged_unit :
    split_md_by_separator_with_merge 6
        (chars "abc```\n----------\n```def``` ghi") =
      [chars "abc```\n\n```def``` ghi"]
    ∧ mdSections (chars "abc```\n----------\n```def``` ghi") =
      [chars "abc```", chars "```def``` ghi"]
    ∧ estimate_combined_char_count (chars "abc```\n\n```def``` ghi") = 9
    ∧ count_characters (chars "abc```\n\n```def``` ghi") = 9
    ∧ estimate_combined_char_count (chars "abc```") = 3
    ∧ estimate_combined_char_count (chars "```def``` ghi") = 3
    ∧ count_characters (chars "abc```") = 3
    ∧ count_characters (chars "```def``` ghi") = 6 := by
  decide

/-! ## Lemmas about the Merger -/

/-- C1 (amended): the Merger performs no completeness check against the
Unit files — its outcome depends only on the Output Unit files present.
It aborts exactly when no Output Unit file exists at all; whenever at
least one Output Unit exists it writes a merged document, however many
Unit files lack an Output Unit. -/
theorem merger_has_no_completeness_gate :
    (∀ d1 d2 : List (Str × Str),
        d1.filter (fun f => isOutputFile f.1) =
          d2.filter (fun f => isOutputFile f.1) →
        merge_markdown_files d1 = merge_markdown_files d2)
    ∧ (∀ d : List (Str × Str),
        (d.filter (fun f => isOutputFile f.1)).isEmpty = false →
        (merge_markdown_files d).isSome = true)
    ∧ (∀ d : List (Str × Str),
        (d.filter (fun f => isOutputFile f.1)).isEmpty = true →
        merge_markdown_files d = none) := by
  refine ⟨?_, ?_, ?_⟩
  · intro d1 d2 h
    unfold merge_markdown_files
    rw [h]
  · intro d h
    simp [merge_markdown_files, h]
  · intro d h
    simp [merge_markdown_files, h]

/-- Witness for C1 at a concrete checkpoint directory: removing the
three Unit files does not change the merge result, and with at least one
Output Unit present the merge writes a document. -/
theorem merger_has_no_completeness_gate_witness :
    (([(chars "page0001.md", chars "u1"), (chars "page0002.md", chars "u2"),
        (chars "page0003.md", chars "u3"),
        (chars "output_page0001.md", chars "one"),
        (chars "output_page0002.md", chars "two")] :
          List (Str × Str)).filter (fun f => isOutputFile f.1) =
        ([(chars "output_page0001.md", chars "one"),
          (chars "output_page0002.md", chars "two")] :
            List (Str × Str)).filter (fun f => isOutputFile f.1))
    ∧ merge_markdown_files
        [(chars "page0001.md", chars "u1"), (chars "page0002.md", chars "u2"),
         (chars "page0003.md", chars "u3"),
         (chars "output_page0001.md", chars "one"),
         (chars "output_page0002.md", chars "two")] =
      merge_markdown_files
        [(chars "output_page0001.md", chars "one"),
         (chars "output_page0002.md", chars "two")] :=
  ⟨by decide, merger_has_no_completeness_gate.1 _ _ (by decide)⟩

/-- Counterexample to C1 as stated: with 3 Unit files on disk but only 2
Output Unit files, the Merger does not abort and does not report a
missing count — it writes the merged document assembled from the 2
available Output Units. -/
theorem merger_writes_despite_missing_output :
    merge_markdown_files
      [(chars "page0001.md", chars "u1"), (chars "page0002.md", chars "u2"),
       (chars "page0003.md", chars "u3"),
       (chars "output_page0001.md", chars "one"),
       (chars "output_page0002.md", chars "two")] =
      some (chars "one\n\ntwo\n\n") := by
  decide

theorem digitChar_isDigit (d : Nat) : isAsciiDigit (digitChar d) = true := by
  unfold digitChar
  split <;> decide

theorem digitChar_toNat (d : Nat) (h : d < 10) : (digitChar d).toNat = 48 + d := by
  interval_cases d <;> decide

theorem parseNat_pad4 (i : Nat) (h : i < 10000) : parseNat (pad4 i) = i := by
  have h1 : (digitChar (i / 1000 % 10)).toNat = 48 + i / 1000 % 10 :=
    digitChar_toNat _ (Nat.mod_lt _ (by omega))
  have h2 : (digitChar (i / 100 % 10)).toNat = 48 + i / 100 % 10 :=
    digitChar_toNat _ (Nat.mod_lt _ (by omega))
  have h3 : (digitChar (i / 10 % 10)).toNat = 48 + i / 10 % 10 :=
    digitChar_toNat _ (Nat.mod_lt _ (by omega))
  have h4 : (digitChar (i % 10)).toNat = 48 + i % 10 :=
    digitChar_toNat _ (Nat.mod_lt _ (by omega))
  simp only [parseNat, pad4, List.foldl_cons, List.foldl_nil, h1, h2, h3, h4]
  omega

theorem takeWhile_append_of_all {p : Char → Bool} :
    ∀ (a : Str) {x : Char} {r : Str}, (∀ c ∈ a, p c = true) → p x = false →
      ((a ++ x :: r).takeWhile p) = a := by
  intro a
  induction a with
  | nil =>
    intro x r _ hx
    simp [List.takeWhile_cons, hx]
  | cons c cs ih =>
    intro x r h hx
    have hc : p c = true := h c (by simp)
    simp [List.takeWhile_cons, hc, ih (fun d hd => h d (by simp [hd])) hx]

theorem dropWhile_append_of_all {p : Char → Bool} :
    ∀ (a : Str) {x : Char} {r : Str}, (∀ c ∈ a, p c = true) → p x = false →
      ((a ++ x :: r).dropWhile p) = x :: r := by
  intro a
  induction a with
  | nil =>
    intro x r _ hx
    simp [List.dropWhile_cons, hx]
  | cons c cs ih =>
    intro x r h hx
    have hc : p c = true := h c (by simp)
    simp [List.dropWhile_cons, hc, ih (fun d hd => h d (by simp [hd])) hx]

theorem splitDigitRunsF_succ (fuel : Nat) (t : Str) :
    splitDigitRunsF (fuel + 1) t =
      if (t.dropWhile (fun c => !isAsciiDigit c)).isEmpty then
        [t.takeWhile (fun c => !isAsciiDigit c)]
      else
        t.takeWhile (fun c => !isAsciiDigit c) ::
          (t.dropWhile (fun c => !isAsciiDigit c)).takeWhile isAsciiDigit ::
          splitDigitRunsF fuel
            ((t.dropWhile (fun c => !isAsciiDigit c)).dropWhile isAsciiDigit) := rfl

theorem splitDigitRuns_outFileName (i : Nat) :
    splitDigitRuns (outFileName i) = [chars "output_page", pad4 i, chars ".md"] := by
  have hform : outFileName i =
      chars "output_page" ++ (digitChar (i / 1000 % 10) :: digitChar (i / 100 % 10) ::
        digitChar (i / 10 % 10) :: digitChar (i % 10) :: chars ".md") := rfl
  have hlen : (outFileName i).length = 18 := rfl
  have hA : ∀ c ∈ chars "output_page", (!isAsciiDigit c) = true := by decide
  have hd1 : (!isAsciiDigit (digitChar (i / 1000 % 10))) = false := by
    simp [digitChar_isDigit]
  have hshape : (digitChar (i / 1000 % 10) :: digitChar (i / 100 % 10) ::
      digitChar (i / 10 % 10) :: digitChar (i % 10) :: chars ".md") =
      [digitChar (i / 1000 % 10), digitChar (i / 100 % 10),
       digitChar (i / 10 % 10), digitChar (i % 10)] ++ ('.' :: chars "md") := rfl
  have hp4 : ∀ c ∈ [digitChar (i / 1000 % 10), digitChar (i / 100 % 10),
      digitChar (i / 10 % 10), digitChar (i % 10)], isAsciiDigit c = true := by
    intro c hc
    simp only [List.mem_cons, List.not_mem_nil, or_false] at hc
    rcases hc with rfl | rfl | rfl | rfl <;> exact digitChar_isDigit _
  have hdot : isAsciiDigit '.' = false := by decide
  have hdotn : (!isAsciiDigit '.') = true := by decide
  have htail : splitDigitRunsF 18 ('.' :: chars "md") = ['.' :: chars "md"] := by decide
  have htw : (outFileName i).takeWhile (fun c => !isAsciiDigit c) =
      chars "output_page" := by
    rw [hform]
    exact takeWhile_append_of_all (chars "output_page") hA hd1
  have hdw : (outFileName i).dropWhile (fun c => !isAsciiDigit c) =
      digitChar (i / 1000 % 10) :: digitChar (i / 100 % 10) ::
        digitChar (i / 10 % 10) :: digitChar (i % 10) :: chars ".md" := by
    rw [hform]
    exact dropWhile_append_of_all (chars "output_page") hA hd1
  have htw2 : (digitChar (i / 1000 % 10) :: digitChar (i / 100 % 10) ::
      digitChar (i / 10 % 10) :: digitChar (i % 10) :: chars ".md").takeWhile
        isAsciiDigit = pad4 i := by
    rw [hshape]
    exact takeWhile_append_of_all _ hp4 hdot
  have hdw2 : (digitChar (i / 1000 % 10) :: digitChar (i / 100 % 10) ::
      digitChar (i / 10 % 10) :: digitChar (i % 10) :: chars ".md").dropWhile
        isAsciiDigit = '.' :: chars "md" := by
    rw [hshape]
    exact dropWhile_append_of_all _ hp4 hdot
  unfold splitDigitRuns
  rw [hlen, splitDigitRunsF_succ, htw, hdw, htw2, hdw2, htail]
  simp only [List.isEmpty_cons, Bool.false_eq_true, if_false]
  rfl

theorem natKey_outFileName (i : Nat) (h : i < 10000) :
    natural_sort_key (outFileName i) =
      [Tok.s (chars "output_page"), Tok.n i, Tok.s (chars ".md")] := by
  unfold natural_sort_key
  rw [splitDigitRuns_outFileName]
  have hApred : (!(chars "output_page").isEmpty &&
      (chars "output_page").all isAsciiDigit) = false := by decide
  have hBpred : (!(chars ".md").isEmpty && (chars ".md").all isAsciiDigit) = false := by
    decide
  have hPpred : (!(pad4 i).isEmpty && (pad4 i).all isAsciiDigit) = true := by
    simp [pad4, digitChar_isDigit]
  have hAlow : pyLower (chars "output_page") = chars "output_page" := by decide
  have hBlow : pyLower (chars ".md") = chars ".md" := by decide
  simp only [List.map_cons, List.map_nil, hApred, hBpred, hPpred,
    Bool.false_eq_true, if_false, if_true, hAlow, hBlow, parseNat_pad4 i h]

theorem keyLt_outFileName (i j : Nat) (hi : i < 10000) (hj : j < 10000) :
    keyLt (natural_sort_key (outFileName i)) (natural_sort_key (outFileName j)) =
      decide (i < j) := by
  rw [natKey_outFileName i hi, natKey_outFileName j hj]
  have h1 : strLt (chars "output_page") (chars "output_page") = false := by decide
  have h2 : strLt (chars ".md") (chars ".md") = false := by decide
  simp only [keyLt, tokLt, h1, h2, Bool.false_or, Bool.and_false, Bool.or_false,
    beq_self_eq_true, Bool.true_and]

/-- Pair of a numeric index and a file content, turned into the Output
Unit file the Coordinator would have written for that index. -/
def toOutFile (p : Nat × Str) : Str × Str := (outFileName p.1, p.2)

/-- Ascending order on indexed contents. -/
def idxLe (a b : Nat × Str) : Prop := a.1 ≤ b.1

instance : DecidableRel idxLe := fun a b => by
  unfold idxLe; infer_instance

theorem mergeFileLe_toOutFile (a b : Nat × Str) (ha : a.1 < 10000)
    (hb : b.1 < 10000) : mergeFileLe (toOutFile a) (toOutFile b) ↔ idxLe a b := by
  unfold mergeFileLe toOutFile idxLe
  rw [keyLt_outFileName b.1 a.1 hb ha]
  constructor
  · intro h
    by_contra hc
    rw [decide_eq_false_iff_not] at h
    omega
  · intro h
    rw [decide_eq_false_iff_not]
    omega

theorem orderedInsert_map_comm (x : Nat × Str) (hx : x.1 < 10000) :
    ∀ (l : List (Nat × Str)), (∀ p ∈ l, p.1 < 10000) →
      List.orderedInsert mergeFileLe (toOutFile x) (l.map toOutFile) =
        (List.orderedInsert idxLe x l).map toOutFile := by
  intro l
  induction l with
  | nil => intro _; rfl
  | cons y r ih =>
    intro h
    have hy : y.1 < 10000 := h y (by simp)
    simp only [List.map_cons, List.orderedInsert]
    by_cases hle : idxLe x y
    · rw [if_pos ((mergeFileLe_toOutFile x y hx hy).mpr hle), if_pos hle]
      simp
    · rw [if_neg (fun hc => hle ((mergeFileLe_toOutFile x y hx hy).mp hc)),
        if_neg hle]
      simp only [List.map_cons]
      rw [ih (fun p hp => h p (by simp [hp]))]

theorem insertionSort_map_comm :
    ∀ (l : List (Nat × Str)), (∀ p ∈ l, p.1 < 10000) →
      List.insertionSort mergeFileLe (l.map toOutFile) =
        (List.insertionSort idxLe l).map toOutFile := by
  intro l
  induction l with
  | nil => intro _; rfl
  | cons x r ih =>
    intro h
    have hx : x.1 < 10000 := h x (by simp)
    simp only [List.map_cons, List.insertionSort]
    rw [ih (fun p hp => h p (by simp [hp]))]
    exact orderedInsert_map_comm x hx (List.insertionSort idxLe r)
      (fun p hp => h p (by simp [(List.perm_insertionSort idxLe r).mem_iff.mp hp]))

theorem insertionSort_idx_eq_of_sorted (fs gs : List (Nat × Str))
    (hperm : fs.Perm gs) (hnodup : fs.Pairwise (fun a b => a.1 ≠ b.1))
    (hsorted : gs.Pairwise (fun a b => a.1 < b.1)) :
    List.insertionSort idxLe fs = gs := by
  haveI : IsTotal (Nat × Str) idxLe := ⟨fun a b => Nat.le_total a.1 b.1⟩
  haveI : IsTrans (Nat × Str) idxLe := ⟨fun a b c h1 h2 => Nat.le_trans h1 h2⟩
  have hs1 : List.Sorted idxLe (List.insertionSort idxLe fs) :=
    List.sorted_insertionSort idxLe fs
  have hperm1 : (List.insertionSort idxLe fs).Perm fs :=
    List.perm_insertionSort idxLe fs
  have hne : List.Pairwise (fun a b : Nat × Str => a.1 ≠ b.1)
      (List.insertionSort idxLe fs) :=
    ((hperm1.pairwise_iff (fun hxy => Ne.symm hxy)).mpr hnodup)
  have hstrict : List.Pairwise (fun a b : Nat × Str => a.1 < b.1)
      (List.insertionSort idxLe fs) := by
    have hcomb := List.Pairwise.and hs1 hne
    exact hcomb.imp (fun hab => by
      obtain ⟨h1, h2⟩ := hab
      have : idxLe _ _ := h1
      unfold idxLe at this
      omega)
  haveI : IsAntisymm (Nat × Str) (fun a b => a.1 < b.1) :=
    ⟨fun a b h1 h2 => absurd h2 (by omega)⟩
  exact List.eq_of_perm_of_sorted (hperm1.trans hperm) hstrict hsorted

theorem isOutputFile_outFileName (i : Nat) : isOutputFile (outFileName i) = true := by
  unfold isOutputFile
  rw [Bool.and_eq_true]
  constructor
  · unfold outFileName
    rw [List.append_assoc]
    exact isPrefixOf_append_self _ _
  · unfold outFileName List.isSuffixOf
    rw [List.reverse_append]
    exact isPrefixOf_append_self _ _

/-- C8: whatever order the Output Unit files are listed in, the Merger
concatenates their stripped contents in ascending numeric index order
(each followed by a blank line): for any listing `fs` of indexed
contents and any ascending arrangement `gs` of the same files, the
merged document is exactly the concatenation along `gs`. -/
theorem merge_orders_by_numeric_index (fs gs : List (Nat × Str))
    (hne : fs ≠ [])
    (hlt : ∀ p ∈ fs, p.1 < 10000)
    (hnodup : fs.Pairwise (fun a b => a.1 ≠ b.1))
    (hperm : fs.Perm gs)
    (hsorted : gs.Pairwise (fun a b => a.1 < b.1)) :
    merge_markdown_files (fs.map toOutFile) =
      some (mergedContent (gs.map toOutFile)) := by
  have hfilter : (fs.map toOutFile).filter (fun f => isOutputFile f.1) =
      fs.map toOutFile := by
    rw [List.filter_eq_self]
    intro f hf
    obtain ⟨p, hp, hpf⟩ := List.mem_map.mp hf
    rw [← hpf]
    exact isOutputFile_outFileName p.1
  have hnem : (fs.map toOutFile).isEmpty = false := by
    cases fs with
    | nil => exact absurd rfl hne
    | cons a r => simp
  unfold merge_markdown_files
  rw [hfilter]
  simp only [hnem, Bool.false_eq_true, if_false]
  rw [insertionSort_map_comm fs hlt,
    insertionSort_idx_eq_of_sorted fs gs hperm hnodup hsorted]

/-- Witness for C8 at the specification's own scenario: three Output
Units listed on disk in the order 2, 1, 3 merge into content ordered
1, 2, 3. -/
theorem merge_orders_by_numeric_index_witness :
    ([((2 : Nat), chars "two"), (1, chars "one"), (3, chars "three")] :
        List (Nat × Str)) ≠ []
    ∧ merge_markdown_files
        (([((2 : Nat), chars "two"), (1, chars "one"), (3, chars "three")] :
          List (Nat × Str)).map toOutFile) =
      some (mergedContent
        (([((1 : Nat), chars "one"), (2, chars "two"), (3, chars "three")] :
          List (Nat × Str)).map toOutFile))
    ∧ mergedContent
        (([((1 : Nat), chars "one"), (2, chars "two"), (3, chars "three")] :
          List (Nat × Str)).map toOutFile) =
      chars "one\n\ntwo\n\nthree\n\n" :=
  ⟨by decide,
   merge_orders_by_numeric_index
     [(2, chars "two"), (1, chars "one"), (3, chars "three")]
     [(1, chars "one"), (2, chars "two"), (3, chars "three")]
     (by decide) (by decide) (by decide) (by decide) (by decide),
   by decide⟩
